import Mathlib

/-
Verification of the pyLinter program (myLint.py): a shallow embedding of its
data model (AST nodes, violations, checkers) and of its two rule checkers
(SetDuplicateItemChecker and the unused-variable checkers), together with
theorems settling the specified properties.

Modelling conventions:
* An AST node's identity (Python object identity, used by set-based
  deduplication) is an explicit `id : Nat` in `NodeInfo`, together with the
  position metadata (`lineno`, `col_offset`) used by the printer.
* Python `set`s of violations are modelled as duplicate-free lists in
  insertion order (`addViolation` inserts only if absent); the unspecified
  iteration order of a Python set is modelled, where it matters, by an
  explicit enumeration function required to be a permutation.
* Python `dict`s (insertion-ordered in CPython) are association lists;
  `dictSet` updates in place or appends, exactly like dict assignment.
* Python value equality (`==`, used for set membership of constant values)
  is `pyEq`, which identifies booleans with the integers 0 and 1 as Python
  does; `pyRepr` models `repr` for the value kinds covered.
-/

namespace MyLint

/-- Identity and position metadata of one AST node: `id` stands for Python
object identity; `lineno` and `colOffset` are the position attributes read by
the violation printer. -/
structure NodeInfo where
  id : Nat
  lineno : Nat
  colOffset : Nat
deriving DecidableEq, Repr

/-- The expression context of an `ast.Name` node: `store` is a write
(`ast.Store`); `load` and `del` are the non-write contexts. -/
inductive Ctx where
  | store
  | load
  | del
deriving DecidableEq, Repr

/-- Constant payload values (`ast.Constant.value`) for the kinds the linter
can meet: integers, strings, booleans and `None`. -/
inductive PyVal where
  | int : Int → PyVal
  | str : String → PyVal
  | bool : Bool → PyVal
  | none : PyVal
deriving DecidableEq, Repr

/-- Python `==` on constant values: `True == 1`, `False == 0`, numbers by
value, strings by content, `None` only equal to itself. -/
def pyEq : PyVal → PyVal → Bool
  | .int m, .int n => m == n
  | .int m, .bool b => m == (if b then (1 : Int) else 0)
  | .bool b, .int n => (if b then (1 : Int) else 0) == n
  | .bool a, .bool b => a == b
  | .str s, .str t => s == t
  | .none, .none => true
  | _, _ => false

/-- Membership in a Python set of values (`value in seen_values`), which
tests with `==`. -/
def pyMem (v : PyVal) (seen : List PyVal) : Bool :=
  seen.any (fun w => pyEq w v)

/-- Python `repr` of a constant value, as interpolated by `{value!r}`. -/
def pyRepr : PyVal → String
  | .int n => toString n
  | .str s => "\x27" ++ s ++ "\x27"
  | .bool b => if b then "True" else "False"
  | .none => "None"

/-- The parse tree: the node kinds the checkers dispatch on (`Module`,
`ClassDef`, `FunctionDef`, `Set`, `Constant`, `Name`) plus `other` for every
remaining node kind, which the generic visitor only recurses through. -/
inductive Tree where
  | module : NodeInfo → List Tree → Tree
  | classDef : NodeInfo → String → List Tree → Tree
  | functionDef : NodeInfo → String → List Tree → Tree
  | setLit : NodeInfo → List Tree → Tree
  | constant : NodeInfo → PyVal → Tree
  | name : NodeInfo → String → Ctx → Tree
  | other : NodeInfo → List Tree → Tree

/-- `Violation`: the node that breaks the rule plus the message shown to the
user. Equality is the NamedTuple equality the Python set uses: node identity
together with string equality of the message. -/
structure Violation where
  node : NodeInfo
  message : String
deriving DecidableEq, Repr

/-- `self.violations.add(violation)`: set insertion, a no-op when an equal
violation is already present; insertion order is kept for the model. -/
def addViolation (vs : List Violation) (v : Violation) : List Violation :=
  if v ∈ vs then vs else vs ++ [v]

/-- The message `f"Set contains duplicate item: {value!r}"`. -/
def dupItemMsg (v : PyVal) : String :=
  "Set contains duplicate item: " ++ pyRepr v

/-- One iteration of the loop in `SetDuplicateItemChecker.visit_Set`: the
accumulator carries the local `seen_values` and the checker's violations;
non-`Constant` elements are skipped. -/
def setDupStep (acc : List PyVal × List Violation) (element : Tree) :
    List PyVal × List Violation :=
  match element with
  | .constant info v =>
      if pyMem v acc.1 then
        (acc.1, addViolation acc.2 ⟨info, dupItemMsg v⟩)
      else
        (acc.1 ++ [v], acc.2)
  | _ => acc

/-- `SetDuplicateItemChecker.visit_Set`: scan the set literal's elements in
written order with a fresh `seen_values`. -/
def visit_Set (vs : List Violation) (elts : List Tree) : List Violation :=
  (elts.foldl setDupStep ([], vs)).2

mutual
/-- The traversal of `SetDuplicateItemChecker`: `ast.NodeVisitor.visit`
dispatches `Set` nodes to `visit_Set` (which does not recurse into children);
every other node kind falls through to `generic_visit`, which recurses. -/
def sdicVisit : List Violation → Tree → List Violation
  | vs, .setLit _ elts => visit_Set vs elts
  | vs, .module _ body => sdicVisitList vs body
  | vs, .classDef _ _ body => sdicVisitList vs body
  | vs, .functionDef _ _ body => sdicVisitList vs body
  | vs, .constant _ _ => vs
  | vs, .name _ _ _ => vs
  | vs, .other _ children => sdicVisitList vs children
/-- `generic_visit`: visit the children in order, threading the checker's
violation set. -/
def sdicVisitList : List Violation → List Tree → List Violation
  | vs, [] => vs
  | vs, t :: ts => sdicVisitList (sdicVisit vs t) ts
end

/-- Lookup in an insertion-ordered dict (association list). -/
def dictLookup {α : Type} : List (String × α) → String → Option α
  | [], _ => Option.none
  | (k, v) :: rest, key => if k = key then some v else dictLookup rest key

/-- Dict assignment `d[key] = v`: update in place when the key is present,
append otherwise (CPython insertion order). -/
def dictSet {α : Type} : List (String × α) → String → α → List (String × α)
  | [], key, v => [(key, v)]
  | (k, w) :: rest, key, v =>
      if k = key then (k, v) :: rest else (k, w) :: dictSet rest key v

/-- The state of one `Unused_Variable_In_Scope_Checker`: `unusedNames` maps a
variable name to whether it is still unused; `nameNodes` holds the first
`Store` occurrence of each name. -/
structure ScopeState where
  unusedNames : List (String × Bool)
  nameNodes : List (String × NodeInfo)
deriving DecidableEq, Repr

/-- `Unused_Variable_In_Scope_Checker.visit_Name`: in a `Store` context,
record the node as first occurrence if the name is new and mark the name
still-unused only if it has never been seen; in any other context mark the
name used. -/
def visit_Name (st : ScopeState) (node : NodeInfo) (varName : String)
    (ctx : Ctx) : ScopeState :=
  if ctx = .store then
    let st1 :=
      if (dictLookup st.nameNodes varName).isNone then
        { st with nameNodes := st.nameNodes ++ [(varName, node)] }
      else st
    if (dictLookup st1.unusedNames varName).isNone then
      { st1 with unusedNames := st1.unusedNames ++ [(varName, true)] }
    else st1
  else
    { st with unusedNames := dictSet st.unusedNames varName false }

mutual
/-- The traversal of `Unused_Variable_In_Scope_Checker`: `Name` nodes go to
`visit_Name`; everything else falls through to `generic_visit`, so the
tracker descends into the whole subtree, nested scopes included. -/
def scopeVisit : ScopeState → Tree → ScopeState
  | st, .name info ident ctx => visit_Name st info ident ctx
  | st, .module _ body => scopeVisitList st body
  | st, .classDef _ _ body => scopeVisitList st body
  | st, .functionDef _ _ body => scopeVisitList st body
  | st, .setLit _ elts => scopeVisitList st elts
  | st, .constant _ _ => st
  | st, .other _ children => scopeVisitList st children
/-- `generic_visit` for the scope tracker. -/
def scopeVisitList : ScopeState → List Tree → ScopeState
  | st, [] => st
  | st, t :: ts => scopeVisitList (scopeVisit st t) ts
end

/-- The message `f"Unused variable: {name}"`. -/
def unusedMsg (n : String) : String :=
  "Unused variable: " ++ n

/-- The body of the loop `for name, unused in visitor.unused_names.items()`:
emit a violation at `visitor.name_nodes[name]` for a name still flagged
unused. (The `Option.none` branch is unreachable: a name flagged unused
always has a recorded first-occurrence node.) -/
def emitStep (nameNodes : List (String × NodeInfo)) (acc : List Violation)
    (entry : String × Bool) : List Violation :=
  if entry.2 then
    match dictLookup nameNodes entry.1 with
    | some info => addViolation acc ⟨info, unusedMsg entry.1⟩
    | Option.none => acc
  else acc

/-- `Unused_Variable_Checker.check_for_unused_variables`: run a fresh scope
tracker over the node's subtree, then emit one violation per name still
flagged unused, at its first-occurrence node. -/
def check_for_unused_variables (vs : List Violation) (node : Tree) :
    List Violation :=
  let visitor := scopeVisit ⟨[], []⟩ node
  visitor.unusedNames.foldl (emitStep visitor.nameNodes) vs

mutual
/-- The traversal of `Unused_Variable_Checker`. The source defines handlers
`visit_ClassDef` and `visit_FunctionDef` (check the scope, then
`generic_visit`) and a method named `visit_Modules` — which the dispatcher
never calls, because the module node's kind is `Module`; so a `module` node
falls through to plain `generic_visit` with no scope check. -/
def uvcVisit : List Violation → Tree → List Violation
  | vs, .module _ body => uvcVisitList vs body
  | vs, .classDef i nm body =>
      uvcVisitList (check_for_unused_variables vs (.classDef i nm body)) body
  | vs, .functionDef i nm body =>
      uvcVisitList (check_for_unused_variables vs (.functionDef i nm body)) body
  | vs, .setLit _ elts => uvcVisitList vs elts
  | vs, .constant _ _ => vs
  | vs, .name _ _ _ => vs
  | vs, .other _ children => uvcVisitList vs children
/-- `generic_visit` for `Unused_Variable_Checker`. -/
def uvcVisitList : List Violation → List Tree → List Violation
  | vs, [] => vs
  | vs, t :: ts => uvcVisitList (uvcVisit vs t) ts
end

/-- The two checkers `main` installs. -/
inductive CheckerKind where
  | setDup
  | unusedVar
deriving DecidableEq, Repr

/-- Run one checker's `visit` over a whole tree, starting from an empty
violation set. -/
def runChecker : CheckerKind → Tree → List Violation
  | .setDup, t => sdicVisit [] t
  | .unusedVar, t => uvcVisit [] t

/-- One line of `Linter.print_violations`:
`f"{file_name}:{node.lineno}:{node.col_offset}: {checker.issue_code}: {message}"`. -/
def violationLine (fileName issueCode : String) (v : Violation) : String :=
  fileName ++ ":" ++ toString v.node.lineno ++ ":" ++
    toString v.node.colOffset ++ ": " ++ issueCode ++ ": " ++ v.message

/-- `Linter.print_violations`: one line per violation, in the order the
checker's violation set is enumerated. -/
def print_violations (fileName issueCode : String) (vs : List Violation) :
    List String :=
  vs.map (violationLine fileName issueCode)

/-- The checker set of `main`: `SetDuplicateItemChecker` with issue code
`W001` and `Unused_Variable_Checker` with `W002`. -/
def mainCheckers : List (CheckerKind × String) :=
  [(CheckerKind.setDup, "W001"), (CheckerKind.unusedVar, "W002")]

/-- The stdout of one `Linter.run` after a successful parse. `checkers` is
an enumeration of the linter's checker set and `enum` an enumeration of each
checker's violation set: both are Python sets, so their iteration order is
some permutation not fixed by the source. -/
def linterOutput (fileName : String) (t : Tree)
    (checkers : List (CheckerKind × String))
    (enum : List Violation → List Violation) : List String :=
  (checkers.map
    (fun kc => print_violations fileName kc.2 (enum (runChecker kc.1 t)))).flatten

/-- The outcome of `ast.parse` on the source text: a tree, or a
`SyntaxError` carrying a message. -/
inductive ParseResult where
  | ok : Tree → ParseResult
  | error : String → ParseResult

/-- `Linter.run`: parse, then for each checker visit the tree and print its
violations. A parse failure raises before the checker loop, so no checker
runs and nothing is printed. -/
def linterRun (pr : ParseResult) (fileName : String)
    (checkers : List (CheckerKind × String))
    (enum : List Violation → List Violation) : Except String (List String) :=
  match pr with
  | .error m => Except.error m
  | .ok t => Except.ok (linterOutput fileName t checkers enum)

/-- The constant values among the first `i` elements of a set literal. -/
def earlierConstVals (es : List Tree) (i : Nat) : List PyVal :=
  (es.take i).filterMap
    (fun e => match e with
      | .constant _ v => some v
      | _ => Option.none)

/-- The violation the specification assigns to position `i` of a set
literal: the element must be a literal constant whose value already occurs
among the constants before it; every other element yields nothing. -/
def flaggedAt (es : List Tree) (i : Nat) : Option Violation :=
  match es.get? i with
  | some (.constant info v) =>
      if pyMem v (earlierConstVals es i) then some ⟨info, dupItemMsg v⟩
      else Option.none
  | _ => Option.none

/-- All violations the specification assigns to a set literal, in written
order: exactly the constant elements that are not the first occurrence of
their value. -/
def specSetDuplicates (es : List Tree) : List Violation :=
  (List.range es.length).filterMap (flaggedAt es)

/-- The node ids of the constant elements of a set literal (distinct in any
real parse tree, where ids are object identities). -/
def constElemIds (es : List Tree) : List Nat :=
  es.filterMap
    (fun e => match e with
      | .constant info _ => some info.id
      | _ => Option.none)

/-- The values of the constant elements of a set literal, in written
order. -/
def constElemVals (es : List Tree) : List PyVal :=
  es.filterMap
    (fun e => match e with
      | .constant _ v => some v
      | _ => Option.none)

/-- One `Name` occurrence in a subtree: node metadata, identifier and
context. -/
structure NameEvent where
  node : NodeInfo
  varName : String
  ctx : Ctx
deriving DecidableEq, Repr

mutual
/-- The `Name` occurrences of a subtree in traversal (written) order — the
exact sequence of `visit_Name` calls a scope tracker performs. -/
def nameEvents : Tree → List NameEvent
  | .name info ident ctx => [⟨info, ident, ctx⟩]
  | .module _ body => nameEventsList body
  | .classDef _ _ body => nameEventsList body
  | .functionDef _ _ body => nameEventsList body
  | .setLit _ elts => nameEventsList elts
  | .constant _ _ => []
  | .other _ children => nameEventsList children
/-- `Name` occurrences of a list of subtrees, in order. -/
def nameEventsList : List Tree → List NameEvent
  | [] => []
  | t :: ts => nameEvents t ++ nameEventsList ts
end

/-- Feed a sequence of `Name` occurrences to `visit_Name`. -/
def processEvents (st : ScopeState) (evs : List NameEvent) : ScopeState :=
  evs.foldl (fun s e => visit_Name s e.node e.varName e.ctx) st

/-- Does the event concern variable `n` in a write (`Store`) context? -/
def isStoreEvent (n : String) (e : NameEvent) : Bool :=
  e.varName = n && e.ctx = Ctx.store

/-- Does the event concern variable `n` in a read (non-write) context? -/
def isReadEvent (n : String) (e : NameEvent) : Bool :=
  e.varName = n && !(e.ctx = Ctx.store)

/-- Does the event concern variable `n` at all? -/
def isEventFor (n : String) (e : NameEvent) : Bool :=
  e.varName = n

/-- `n` occurs in a write context somewhere in the subtree. -/
def hasWrite (n : String) (t : Tree) : Bool :=
  (nameEvents t).any (isStoreEvent n)

/-- `n` occurs in a read (non-write) context somewhere in the subtree. -/
def hasRead (n : String) (t : Tree) : Bool :=
  (nameEvents t).any (isReadEvent n)

/-- The node of the first write occurrence of `n` in the subtree. -/
def firstWriteNode (n : String) (t : Tree) : Option NodeInfo :=
  ((nameEvents t).find? (isStoreEvent n)).map (fun e => e.node)

/-- Concrete instance of C7: the node with id 5 at 2:4 and the duplicate-item
message, added twice to an empty set. -/
def w7 : Violation := ⟨⟨5, 2, 4⟩, dupItemMsg (PyVal.int 3)⟩

/-- A set literal `{ {7, 7}, 9, 9 }`: the inner set literal holds a duplicate
constant, the outer one holds the duplicate 9. -/
def w10Inner : Tree :=
  Tree.setLit ⟨1, 1, 2⟩ [Tree.constant ⟨2, 1, 3⟩ (PyVal.int 7),
    Tree.constant ⟨3, 1, 6⟩ (PyVal.int 7)]

def w10Elts : List Tree :=
  [w10Inner, Tree.constant ⟨4, 1, 10⟩ (PyVal.int 9),
    Tree.constant ⟨5, 1, 13⟩ (PyVal.int 9)]

def w10v : Violation := ⟨⟨5, 1, 13⟩, dupItemMsg (PyVal.int 9)⟩

/-! ### C4 — the module-level scope handler is mis-named and never runs -/

/-- The parse tree of the one-line module `x = 1`: an `Assign` statement
(generic node) whose children are the target `Name` in `Store` context and
the constant. -/
def c4Tree : Tree :=
  Tree.module ⟨0, 1, 0⟩
    [Tree.other ⟨1, 1, 0⟩
      [Tree.name ⟨2, 1, 0⟩ "x" Ctx.store,
       Tree.constant ⟨3, 1, 4⟩ (PyVal.int 1)]]

/-! ### C3 — scope "independence" of the unused-variable analysis -/

/-- The write of `x` in the outer function's body. -/
def c3Write : Tree :=
  Tree.other ⟨2, 2, 4⟩ [Tree.name ⟨3, 2, 4⟩ "x" Ctx.store,
    Tree.constant ⟨7, 2, 8⟩ (PyVal.int 1)]

/-- The nested inner function, whose body reads `x`. -/
def c3Inner : Tree :=
  Tree.functionDef ⟨4, 3, 4⟩ "inner"
    [Tree.other ⟨5, 4, 8⟩ [Tree.name ⟨6, 4, 8⟩ "x" Ctx.load]]

/-- The outer function: writes `x`, never reads it itself, then defines
`inner` which reads `x`. -/
def c3Outer : Tree :=
  Tree.functionDef ⟨1, 1, 0⟩ "outer" [c3Write, c3Inner]

def c3Tree : Tree := Tree.module ⟨0, 1, 0⟩ [c3Outer]

/-- The tree of `{7, 7}` and its one violation. -/
def w9Tree : Tree :=
  Tree.setLit ⟨1, 1, 0⟩ [Tree.constant ⟨2, 1, 1⟩ (PyVal.int 7),
    Tree.constant ⟨3, 1, 4⟩ (PyVal.int 7)]

def w9v : Violation := ⟨⟨3, 1, 4⟩, dupItemMsg (PyVal.int 7)⟩

/-! ### The tracker state after a whole event sequence -/

/-- The final value of the per-name unused flag, as a function of the
current value, of whether any occurrence of the name follows and of whether
any read occurrence follows. -/
def unusedAfter (cur : Option Bool) (anyEvent anyRead : Bool) :
    Option Bool :=
  match cur with
  | some false => some false
  | some true => some (!anyRead)
  | Option.none => if anyEvent then some (!anyRead) else Option.none

/-! ### The violations emitted from one scope check -/

/-- The violations `check_for_unused_variables` emits from a finished
tracker state: one per still-unused name, at its recorded node. -/
def emitList (nn : List (String × NodeInfo)) (d : List (String × Bool)) :
    List Violation :=
  d.filterMap
    (fun p =>
      if p.2 then
        (dictLookup nn p.1).map (fun info => Violation.mk info (unusedMsg p.1))
      else Option.none)

/-- The initial tracker state has empty dictionaries. -/
def initScope : ScopeState := ⟨[], []⟩

/-- The parse tree of the one-line module `y = 2`. -/
def w2Tree : Tree :=
  Tree.module ⟨0, 1, 0⟩
    [Tree.other ⟨1, 1, 0⟩
      [Tree.name ⟨2, 1, 0⟩ "y" Ctx.store,
       Tree.constant ⟨3, 1, 4⟩ (PyVal.int 2)]]

/-- A read of `x` followed by a write of `x`. -/
def w5read : NameEvent := ⟨⟨1, 1, 0⟩, "x", Ctx.load⟩

def w5write : NameEvent := ⟨⟨2, 2, 0⟩, "x", Ctx.store⟩

/-! ### C1 — duplicate constants in a set literal -/

/-- Canonical form underlying Python `==` on the covered constants: a
boolean is the integer 0 or 1; everything else is itself. -/
def pyKey : PyVal → PyVal
  | .bool b => .int (if b then 1 else 0)
  | v => v

/-- The constant value an element contributes to `seen_values` (none for a
non-constant element). -/
def constValOf : Tree → List PyVal
  | .constant _ v => [v]
  | _ => []

/-- The reference recursion for the `visit_Set` loop: the violations it
appends for the remaining elements, given the values seen so far. -/
def setDupGo : List PyVal → List Tree → List Violation
  | _, [] => []
  | seen, .constant info v :: rest =>
      if pyMem v seen then
        Violation.mk info (dupItemMsg v) :: setDupGo seen rest
      else setDupGo (seen ++ [v]) rest
  | seen, _ :: rest => setDupGo seen rest

/-- The later-duplicate test of position `i`, relative to the values already
seen before the scan starts. -/
def flaggedFrom (seen : List PyVal) (es : List Tree) (i : Nat) :
    Option Violation :=
  match es.get? i with
  | some (.constant info v) =>
      if pyMem v (seen ++ earlierConstVals es i) then
        some ⟨info, dupItemMsg v⟩
      else Option.none
  | _ => Option.none

/-- The elements of the set literal `{1, 2, 2, 3, 1}`. -/
def w1Elts : List Tree :=
  [Tree.constant ⟨1, 1, 1⟩ (PyVal.int 1),
   Tree.constant ⟨2, 1, 4⟩ (PyVal.int 2),
   Tree.constant ⟨3, 1, 7⟩ (PyVal.int 2),
   Tree.constant ⟨4, 1, 10⟩ (PyVal.int 3),
   Tree.constant ⟨5, 1, 13⟩ (PyVal.int 1)]

/-- The elements of the set literal `{1, 2, 3}`. -/
def w1DistinctElts : List Tree :=
  [Tree.constant ⟨1, 2, 1⟩ (PyVal.int 1),
   Tree.constant ⟨2, 2, 4⟩ (PyVal.int 2),
   Tree.constant ⟨3, 2, 7⟩ (PyVal.int 3)]

/-! ### C8 — determinism across runs -/

/-- The module `{1, 1, 2, 2}`: one checker collects two violations. -/
def c8Tree : Tree :=
  Tree.module ⟨0, 1, 0⟩
    [Tree.setLit ⟨1, 1, 0⟩
      [Tree.constant ⟨2, 1, 1⟩ (PyVal.int 1),
       Tree.constant ⟨3, 1, 4⟩ (PyVal.int 1),
       Tree.constant ⟨4, 1, 7⟩ (PyVal.int 2),
       Tree.constant ⟨5, 1, 10⟩ (PyVal.int 2)]]

/-! ### Helper lemmas about the violation set -/

theorem mem_addViolation_self (vs : List Violation) (v : Violation) :
    v ∈ addViolation vs v := by
  unfold addViolation
  split
  · assumption
  · simp

theorem addViolation_of_mem {vs : List Violation} {v : Violation}
    (h : v ∈ vs) : addViolation vs v = vs :=
  if_pos h

theorem addViolation_of_not_mem {vs : List Violation} {v : Violation}
    (h : v ∉ vs) : addViolation vs v = vs ++ [v] :=
  if_neg h

theorem addViolation_nodup {vs : List Violation} (h : vs.Nodup)
    (v : Violation) : (addViolation vs v).Nodup := by
  unfold addViolation
  split
  · exact h
  · next hmem => simp [List.nodup_append, h, hmem]

theorem mem_addViolation {vs : List Violation} {v w : Violation}
    (h : v ∈ addViolation vs w) : v ∈ vs ∨ v = w := by
  unfold addViolation at h
  split at h
  · exact Or.inl h
  · simpa using h

/-- Concatenation on the left of a string is injective. -/
theorem string_append_left_cancel {s a b : String} (h : s ++ a = s ++ b) :
    a = b := by
  have hd : s.data ++ a.data = s.data ++ b.data := by
    have := congrArg String.data h
    simpa [String.data_append] using this
  cases a with
  | mk da =>
      cases b with
      | mk db =>
          simp only at hd
          exact congrArg String.mk (List.append_cancel_left hd)

theorem unusedMsg_inj {m n : String} (h : unusedMsg m = unusedMsg n) :
    m = n :=
  string_append_left_cancel h

/-! ### Nodup preservation through every handler -/

theorem foldl_setDupStep_nodup (es : List Tree) :
    ∀ (seen : List PyVal) (vs : List Violation), vs.Nodup →
      ((es.foldl setDupStep (seen, vs)).2).Nodup := by
  induction es with
  | nil => intro seen vs h; simpa using h
  | cons e rest ih =>
      intro seen vs h
      simp only [List.foldl_cons]
      cases e with
      | constant info v =>
          by_cases hm : pyMem v seen = true
          · simpa [setDupStep, hm] using
              ih seen (addViolation vs ⟨info, dupItemMsg v⟩)
                (addViolation_nodup h _)
          · simpa [setDupStep, hm] using ih (seen ++ [v]) vs h
      | module i b => simpa [setDupStep] using ih seen vs h
      | classDef i nm b => simpa [setDupStep] using ih seen vs h
      | functionDef i nm b => simpa [setDupStep] using ih seen vs h
      | setLit i elts => simpa [setDupStep] using ih seen vs h
      | name i nm c => simpa [setDupStep] using ih seen vs h
      | other i c => simpa [setDupStep] using ih seen vs h

theorem visit_Set_nodup {vs : List Violation} (h : vs.Nodup)
    (elts : List Tree) : (visit_Set vs elts).Nodup :=
  foldl_setDupStep_nodup elts [] vs h

mutual
theorem sdicVisit_nodup :
    ∀ (t : Tree) (vs : List Violation), vs.Nodup → (sdicVisit vs t).Nodup
  | .setLit _ elts, vs, h => by
      simpa [sdicVisit] using visit_Set_nodup h elts
  | .module _ body, vs, h => by
      simpa [sdicVisit] using sdicVisitList_nodup body vs h
  | .classDef _ _ body, vs, h => by
      simpa [sdicVisit] using sdicVisitList_nodup body vs h
  | .functionDef _ _ body, vs, h => by
      simpa [sdicVisit] using sdicVisitList_nodup body vs h
  | .constant _ _, vs, h => by simpa [sdicVisit] using h
  | .name _ _ _, vs, h => by simpa [sdicVisit] using h
  | .other _ children, vs, h => by
      simpa [sdicVisit] using sdicVisitList_nodup children vs h
theorem sdicVisitList_nodup :
    ∀ (ts : List Tree) (vs : List Violation), vs.Nodup →
      (sdicVisitList vs ts).Nodup
  | [], vs, h => by simpa [sdicVisitList] using h
  | t :: ts, vs, h => by
      simpa [sdicVisitList] using
        sdicVisitList_nodup ts (sdicVisit vs t) (sdicVisit_nodup t vs h)
end

theorem foldl_emitStep_nodup (nn : List (String × NodeInfo))
    (d : List (String × Bool)) :
    ∀ (acc : List Violation), acc.Nodup →
      (d.foldl (emitStep nn) acc).Nodup := by
  induction d with
  | nil => intro acc h; simpa using h
  | cons p rest ih =>
      intro acc h
      simp only [List.foldl_cons]
      apply ih
      unfold emitStep
      split
      · split
        · exact addViolation_nodup h _
        · exact h
      · exact h

theorem check_for_unused_variables_nodup {vs : List Violation} (h : vs.Nodup)
    (t : Tree) : (check_for_unused_variables vs t).Nodup :=
  foldl_emitStep_nodup _ _ vs h

mutual
theorem uvcVisit_nodup :
    ∀ (t : Tree) (vs : List Violation), vs.Nodup → (uvcVisit vs t).Nodup
  | .module _ body, vs, h => by
      simpa [uvcVisit] using uvcVisitList_nodup body vs h
  | .classDef i nm body, vs, h => by
      simpa [uvcVisit] using
        uvcVisitList_nodup body _ (check_for_unused_variables_nodup h _)
  | .functionDef i nm body, vs, h => by
      simpa [uvcVisit] using
        uvcVisitList_nodup body _ (check_for_unused_variables_nodup h _)
  | .setLit _ elts, vs, h => by
      simpa [uvcVisit] using uvcVisitList_nodup elts vs h
  | .constant _ _, vs, h => by simpa [uvcVisit] using h
  | .name _ _ _, vs, h => by simpa [uvcVisit] using h
  | .other _ children, vs, h => by
      simpa [uvcVisit] using uvcVisitList_nodup children vs h
theorem uvcVisitList_nodup :
    ∀ (ts : List Tree) (vs : List Violation), vs.Nodup →
      (uvcVisitList vs ts).Nodup
  | [], vs, h => by simpa [uvcVisitList] using h
  | t :: ts, vs, h => by
      simpa [uvcVisitList] using
        uvcVisitList_nodup ts (uvcVisit vs t) (uvcVisit_nodup t vs h)
end

/-! ### C6 — parse failure aborts before any checker output -/

/-- C6: if the source text fails to parse, `Linter.run` propagates the fatal
parse error raised before the checker loop: the run result is that error,
and it is not a successful run with printed lines — so no violations are
printed for any checker. -/
theorem c6_parse_failure_is_fatal (m fileName : String)
    (checkers : List (CheckerKind × String))
    (enum : List Violation → List Violation) :
    linterRun (ParseResult.error m) fileName checkers enum = Except.error m ∧
    ∀ out : List String,
      linterRun (ParseResult.error m) fileName checkers enum ≠
        Except.ok out := by
  refine ⟨rfl, ?_⟩
  intro out h
  simp [linterRun] at h

theorem c6_parse_failure_is_fatal_witness :
    linterRun (ParseResult.error "invalid syntax") "t.py" mainCheckers id =
      Except.error "invalid syntax" :=
  (c6_parse_failure_is_fatal "invalid syntax" "t.py" mainCheckers id).1

/-! ### C7 — violations deduplicate by (node identity, message) -/

/-- C7: a checker's violation collection deduplicates by the pair (node
identity, message): adding the same violation twice leaves exactly the same
collection as adding it once, which then contains that violation exactly
once; and the collection stays duplicate-free across every handler
invocation (both checkers' traversals preserve it). -/
theorem c7_violations_deduplicate (vs : List Violation) (v : Violation)
    (t : Tree) (h : vs.Nodup) :
    addViolation (addViolation vs v) v = addViolation vs v ∧
    (addViolation vs v).Nodup ∧
    (addViolation vs v).count v = 1 ∧
    (sdicVisit vs t).Nodup ∧
    (uvcVisit vs t).Nodup := by
  refine ⟨addViolation_of_mem (mem_addViolation_self vs v), ?_, ?_, ?_, ?_⟩
  · exact addViolation_nodup h v
  · exact List.count_eq_one_of_mem (addViolation_nodup h v)
      (mem_addViolation_self vs v)
  · exact sdicVisit_nodup t vs h
  · exact uvcVisit_nodup t vs h

theorem c7_violations_deduplicate_witness :
    ([] : List Violation).Nodup ∧
    addViolation (addViolation [] w7) w7 = addViolation [] w7 ∧
    (addViolation [] w7).count w7 = 1 :=
  ⟨List.nodup_nil,
    (c7_violations_deduplicate [] w7 (Tree.constant ⟨0, 1, 0⟩ PyVal.none)
      List.nodup_nil).1,
    (c7_violations_deduplicate [] w7 (Tree.constant ⟨0, 1, 0⟩ PyVal.none)
      List.nodup_nil).2.2.1⟩

/-! ### C10 — visit_Set does not recurse into a set's children -/

theorem foldl_setDupStep_mem (es : List Tree) :
    ∀ (seen : List PyVal) (vs : List Violation) (v : Violation),
      v ∈ (es.foldl setDupStep (seen, vs)).2 →
      v ∈ vs ∨ ∃ info c, Tree.constant info c ∈ es ∧ v.node = info := by
  induction es with
  | nil => intro seen vs v h; exact Or.inl (by simpa using h)
  | cons e rest ih =>
      intro seen vs v h
      simp only [List.foldl_cons] at h
      cases e with
      | constant info c =>
          by_cases hm : pyMem c seen = true
          · rw [show setDupStep (seen, vs) (.constant info c) =
                  (seen, addViolation vs ⟨info, dupItemMsg c⟩) by
                simp [setDupStep, hm]] at h
            rcases ih seen _ v h with hv | ⟨i2, c2, hmem, hnode⟩
            · rcases mem_addViolation hv with hv2 | rfl
              · exact Or.inl hv2
              · exact Or.inr ⟨info, c, List.mem_cons_self _ _, rfl⟩
            · exact Or.inr ⟨i2, c2, List.mem_cons_of_mem _ hmem, hnode⟩
          · rw [show setDupStep (seen, vs) (.constant info c) =
                  (seen ++ [c], vs) by simp [setDupStep, hm]] at h
            rcases ih (seen ++ [c]) vs v h with hv | ⟨i2, c2, hmem, hnode⟩
            · exact Or.inl hv
            · exact Or.inr ⟨i2, c2, List.mem_cons_of_mem _ hmem, hnode⟩
      | module i b =>
          rcases ih seen vs v (by simpa [setDupStep] using h) with
            hv | ⟨i2, c2, hmem, hnode⟩
          · exact Or.inl hv
          · exact Or.inr ⟨i2, c2, List.mem_cons_of_mem _ hmem, hnode⟩
      | classDef i nm b =>
          rcases ih seen vs v (by simpa [setDupStep] using h) with
            hv | ⟨i2, c2, hmem, hnode⟩
          · exact Or.inl hv
          · exact Or.inr ⟨i2, c2, List.mem_cons_of_mem _ hmem, hnode⟩
      | functionDef i nm b =>
          rcases ih seen vs v (by simpa [setDupStep] using h) with
            hv | ⟨i2, c2, hmem, hnode⟩
          · exact Or.inl hv
          · exact Or.inr ⟨i2, c2, List.mem_cons_of_mem _ hmem, hnode⟩
      | setLit i elts =>
          rcases ih seen vs v (by simpa [setDupStep] using h) with
            hv | ⟨i2, c2, hmem, hnode⟩
          · exact Or.inl hv
          · exact Or.inr ⟨i2, c2, List.mem_cons_of_mem _ hmem, hnode⟩
      | name i nm cx =>
          rcases ih seen vs v (by simpa [setDupStep] using h) with
            hv | ⟨i2, c2, hmem, hnode⟩
          · exact Or.inl hv
          · exact Or.inr ⟨i2, c2, List.mem_cons_of_mem _ hmem, hnode⟩
      | other i cs =>
          rcases ih seen vs v (by simpa [setDupStep] using h) with
            hv | ⟨i2, c2, hmem, hnode⟩
          · exact Or.inl hv
          · exact Or.inr ⟨i2, c2, List.mem_cons_of_mem _ hmem, hnode⟩

/-- C10: visiting a set-literal node never recurses into the elements'
subtrees — every violation the SetDuplicateItemChecker produces for that
node is attached to a node that is itself a direct constant element of the
set. In particular a set literal nested anywhere inside an element (whatever
duplicates it contains) contributes no violation: its nodes are never
visited. -/
theorem c10_no_recursion_into_set_children (i : NodeInfo) (es : List Tree)
    (v : Violation) (h : v ∈ sdicVisit [] (Tree.setLit i es)) :
    ∃ info c, Tree.constant info c ∈ es ∧ v.node = info := by
  have h' : v ∈ (es.foldl setDupStep (([] : List PyVal), ([] : List Violation))).2 := by
    simpa [sdicVisit, visit_Set] using h
  rcases foldl_setDupStep_mem es [] [] v h' with hv | hex
  · simp at hv
  · exact hex

theorem c10_no_recursion_into_set_children_witness :
    w10v ∈ sdicVisit [] (Tree.setLit ⟨0, 1, 0⟩ w10Elts) ∧
    ∃ info c, Tree.constant info c ∈ w10Elts ∧ w10v.node = info :=
  ⟨by decide,
    c10_no_recursion_into_set_children ⟨0, 1, 0⟩ w10Elts w10v (by decide)⟩

/-- C4 (code bug): on the module `x = 1`, whose root directly contains the
name `x` written and never read, the Unused_Variable_Checker emits nothing —
its module handler is spelled `visit_Modules` while the node kind is
`Module`, so it is never dispatched — although running the scope check on
the module node (what the mis-named handler would do) does flag `x`. -/
theorem c4_module_handler_never_dispatched :
    uvcVisit [] c4Tree = [] ∧
    check_for_unused_variables [] c4Tree =
      [⟨⟨2, 1, 0⟩, unusedMsg "x"⟩] := by
  constructor
  · decide
  · decide

/-- C3 is false on the code: in a module with an outer function that writes
`x` and never reads it (the only read of `x` sits inside the nested inner
function), the checker emits no violation at all — in particular the outer
occurrence is not flagged, contrary to the claim. The conjuncts exhibit the
claimed shape: the outer scope writes `x`, its own statement does not read
`x`, the inner function reads `x`. -/
theorem c3_counterexample :
    hasWrite "x" c3Outer = true ∧
    hasRead "x" c3Write = false ∧
    hasRead "x" c3Inner = true ∧
    uvcVisit [] c3Tree = [] := by
  refine ⟨by decide, by decide, by decide, by decide⟩

/-- C3 amended: the scope tracker of the outer function traverses the whole
subtree, nested function bodies included, so the read of `x` inside the
inner function marks the outer `x` as used: neither the outer nor the inner
occurrence is flagged, and the checker's output on such a module is empty —
for any node positions and identities. -/
theorem c3_amended_inner_read_suppresses_outer (m a b c d e f g : NodeInfo) :
    uvcVisit []
      (Tree.module m
        [Tree.functionDef a "outer"
          [Tree.other b [Tree.name c "x" Ctx.store,
            Tree.constant g (PyVal.int 1)],
           Tree.functionDef d "inner"
            [Tree.other e [Tree.name f "x" Ctx.load]]]]) = [] :=
  rfl

theorem c3_amended_inner_read_suppresses_outer_witness :
    uvcVisit [] c3Tree = [] :=
  c3_amended_inner_read_suppresses_outer ⟨0, 1, 0⟩ ⟨1, 1, 0⟩ ⟨2, 2, 4⟩
    ⟨3, 2, 4⟩ ⟨4, 3, 4⟩ ⟨5, 4, 8⟩ ⟨6, 4, 8⟩ ⟨7, 2, 8⟩

/-! ### C9 — the shape of every printed line -/

/-- C9: for every violation a checker reports, the printer writes exactly one
line, and that line is
`<basename>:<lineno>:<col_offset>: <issue_code>: <message>` built from the
violating node's position: the printed list has one line per violation, and
each violation's line occurs in it with exactly that shape. -/
theorem c9_line_shape (fileName issueCode : String) (t : Tree)
    (k : CheckerKind) :
    (print_violations fileName issueCode (runChecker k t)).length =
      (runChecker k t).length ∧
    ∀ v ∈ runChecker k t,
      violationLine fileName issueCode v ∈
        print_violations fileName issueCode (runChecker k t) ∧
      violationLine fileName issueCode v =
        fileName ++ ":" ++ toString v.node.lineno ++ ":" ++
          toString v.node.colOffset ++ ": " ++ issueCode ++ ": " ++
          v.message := by
  refine ⟨by simp [print_violations], ?_⟩
  intro v hv
  exact ⟨List.mem_map_of_mem _ hv, rfl⟩

/-! ### Dictionary lemmas -/

theorem dictLookup_append_some {α : Type} {d : List (String × α)}
    {key : String} {w : α} (k : String) (v : α)
    (h : dictLookup d key = some w) :
    dictLookup (d ++ [(k, v)]) key = some w := by
  induction d with
  | nil => simp [dictLookup] at h
  | cons a rest ih =>
      rw [List.cons_append]
      unfold dictLookup at h ⊢
      split at h
      · simp [*]
      · next hne => simpa [hne] using ih h

theorem dictLookup_append_none {α : Type} {d : List (String × α)}
    {key : String} (k : String) (v : α)
    (h : dictLookup d key = Option.none) :
    dictLookup (d ++ [(k, v)]) key =
      if k = key then some v else Option.none := by
  induction d with
  | nil => simp [dictLookup]
  | cons a rest ih =>
      rw [List.cons_append]
      unfold dictLookup at h ⊢
      split at h
      · exact absurd h (by simp)
      · next hne => simpa [hne] using ih h

theorem dictLookup_append_ne {α : Type} (d : List (String × α))
    {k key : String} (v : α) (h : ¬ k = key) :
    dictLookup (d ++ [(k, v)]) key = dictLookup d key := by
  induction d with
  | nil => simp [dictLookup, h]
  | cons a rest ih =>
      obtain ⟨a1, a2⟩ := a
      by_cases hak : a1 = key <;> simp [dictLookup, hak, ih]

theorem dictLookup_dictSet {α : Type} (d : List (String × α))
    (k key : String) (v : α) :
    dictLookup (dictSet d k v) key =
      if k = key then some v else dictLookup d key := by
  induction d with
  | nil => simp [dictSet, dictLookup]
  | cons a rest ih =>
      obtain ⟨a1, a2⟩ := a
      by_cases hak : a1 = k
      · subst hak
        by_cases hkey : a1 = key
        · subst hkey
          simp [dictSet, dictLookup]
        · have hne : ¬ a1 = key := hkey
          simp [dictSet, dictLookup, hne]
      · have hka : ¬ k = a1 := fun hh => hak hh.symm
        by_cases hkey : a1 = key
        · subst hkey
          simp [dictSet, dictLookup, hak, hka]
        · simp [dictSet, dictLookup, hak, hkey, ih]

theorem dictLookup_eq_none_iff {α : Type} (d : List (String × α))
    (key : String) :
    dictLookup d key = Option.none ↔ key ∉ d.map Prod.fst := by
  induction d with
  | nil => simp [dictLookup]
  | cons a rest ih =>
      obtain ⟨a1, a2⟩ := a
      by_cases hak : a1 = key
      · subst hak
        simp [dictLookup]
      · have hka : ¬ key = a1 := fun hh => hak hh.symm
        simp [dictLookup, hak, hka, ih]

theorem dictSet_keys {α : Type} (d : List (String × α)) (k : String)
    (v : α) :
    (dictSet d k v).map Prod.fst =
      if k ∈ d.map Prod.fst then d.map Prod.fst
      else d.map Prod.fst ++ [k] := by
  induction d with
  | nil => simp [dictSet]
  | cons a rest ih =>
      obtain ⟨a1, a2⟩ := a
      by_cases hak : a1 = k
      · subst hak
        simp [dictSet]
      · have hka : ¬ k = a1 := fun hh => hak hh.symm
        by_cases hmem : k ∈ rest.map Prod.fst
        · simp [dictSet, hak, hka, hmem, ih]
        · simp [dictSet, hak, hka, hmem, ih]

theorem dictSet_keys_nodup {α : Type} {d : List (String × α)}
    (h : (d.map Prod.fst).Nodup) (k : String) (v : α) :
    ((dictSet d k v).map Prod.fst).Nodup := by
  rw [dictSet_keys]
  split
  · exact h
  · next hmem => simp [List.nodup_append, h, hmem]

theorem dictLookup_of_mem {α : Type} {d : List (String × α)} {k : String}
    {v : α} (hnd : (d.map Prod.fst).Nodup) (h : (k, v) ∈ d) :
    dictLookup d k = some v := by
  induction d with
  | nil => simp at h
  | cons a rest ih =>
      obtain ⟨a1, a2⟩ := a
      simp only [List.map_cons, List.nodup_cons] at hnd
      rcases List.mem_cons.mp h with heq | hmem
      · injection heq with h1 h2
        subst h1
        subst h2
        simp [dictLookup]
      · have hk : ¬ a1 = k := by
          intro hak
          subst hak
          exact hnd.1 (List.mem_map_of_mem Prod.fst hmem)
        simp [dictLookup, hk, ih hnd.2 hmem]

/-! ### Effect of one visit_Name call on the tracker state -/

theorem visit_Name_store_unusedNames (st : ScopeState) (node : NodeInfo)
    (vn : String) :
    (visit_Name st node vn Ctx.store).unusedNames =
      if (dictLookup st.unusedNames vn).isNone then
        st.unusedNames ++ [(vn, true)]
      else st.unusedNames := by
  cases hc1 : (dictLookup st.nameNodes vn).isNone <;>
    cases hc2 : (dictLookup st.unusedNames vn).isNone <;>
      simp [visit_Name, hc1, hc2]

theorem visit_Name_store_nameNodes (st : ScopeState) (node : NodeInfo)
    (vn : String) :
    (visit_Name st node vn Ctx.store).nameNodes =
      if (dictLookup st.nameNodes vn).isNone then
        st.nameNodes ++ [(vn, node)]
      else st.nameNodes := by
  cases hc1 : (dictLookup st.nameNodes vn).isNone <;>
    cases hc2 : (dictLookup st.unusedNames vn).isNone <;>
      simp [visit_Name, hc1, hc2]

theorem visit_Name_nonstore (st : ScopeState) (node : NodeInfo)
    (vn : String) {ctx : Ctx} (h : ¬ ctx = Ctx.store) :
    visit_Name st node vn ctx =
      { st with unusedNames := dictSet st.unusedNames vn false } := by
  simp [visit_Name, h]

theorem visit_Name_unused_lookup (st : ScopeState) (node : NodeInfo)
    (vn n : String) (ctx : Ctx) :
    dictLookup (visit_Name st node vn ctx).unusedNames n =
      if vn = n then
        (if ctx = Ctx.store then
          (match dictLookup st.unusedNames n with
           | Option.none => some true
           | some b => some b)
         else some false)
      else dictLookup st.unusedNames n := by
  by_cases hctx : ctx = Ctx.store
  · subst hctx
    rw [visit_Name_store_unusedNames]
    by_cases habs : (dictLookup st.unusedNames vn).isNone
    · have hvn : dictLookup st.unusedNames vn = Option.none :=
        Option.isNone_iff_eq_none.mp habs
      rw [if_pos habs]
      by_cases hv : vn = n
      · subst hv
        rw [dictLookup_append_none vn true hvn, hvn]
        simp
      · rw [dictLookup_append_ne _ _ hv]
        simp [hv]
    · rw [if_neg habs]
      by_cases hv : vn = n
      · subst hv
        cases hcur : dictLookup st.unusedNames vn with
        | none => rw [hcur] at habs; simp at habs
        | some b => simp [hcur]
      · simp [hv]
  · rw [visit_Name_nonstore st node vn hctx]
    show dictLookup (dictSet st.unusedNames vn false) n = _
    rw [dictLookup_dictSet]
    by_cases hv : vn = n <;> simp [hv, hctx]

theorem visit_Name_nameNodes_lookup (st : ScopeState) (node : NodeInfo)
    (vn n : String) (ctx : Ctx) :
    dictLookup (visit_Name st node vn ctx).nameNodes n =
      if vn = n ∧ ctx = Ctx.store then
        (match dictLookup st.nameNodes n with
         | Option.none => some node
         | some i => some i)
      else dictLookup st.nameNodes n := by
  by_cases hctx : ctx = Ctx.store
  · subst hctx
    rw [visit_Name_store_nameNodes]
    by_cases habs : (dictLookup st.nameNodes vn).isNone
    · have hvn : dictLookup st.nameNodes vn = Option.none :=
        Option.isNone_iff_eq_none.mp habs
      rw [if_pos habs]
      by_cases hv : vn = n
      · subst hv
        rw [dictLookup_append_none vn node hvn, hvn]
        simp
      · rw [dictLookup_append_ne _ _ hv]
        simp [hv]
    · rw [if_neg habs]
      by_cases hv : vn = n
      · subst hv
        cases hcur : dictLookup st.nameNodes vn with
        | none => rw [hcur] at habs; simp at habs
        | some i => simp [hcur]
      · simp [hv]
  · rw [visit_Name_nonstore st node vn hctx]
    show dictLookup st.nameNodes n = _
    simp [hctx]

theorem visit_Name_unused_keys_nodup {st : ScopeState}
    (h : (st.unusedNames.map Prod.fst).Nodup) (node : NodeInfo)
    (vn : String) (ctx : Ctx) :
    ((visit_Name st node vn ctx).unusedNames.map Prod.fst).Nodup := by
  by_cases hctx : ctx = Ctx.store
  · subst hctx
    rw [visit_Name_store_unusedNames]
    by_cases habs : (dictLookup st.unusedNames vn).isNone
    · have hvn : vn ∉ st.unusedNames.map Prod.fst :=
        (dictLookup_eq_none_iff _ _).mp (Option.isNone_iff_eq_none.mp habs)
      rw [if_pos habs]
      simp [List.nodup_append, h, hvn]
    · rw [if_neg habs]
      exact h
  · rw [visit_Name_nonstore st node vn hctx]
    exact dictSet_keys_nodup h vn false

theorem processEvents_cons (st : ScopeState) (e : NameEvent)
    (evs : List NameEvent) :
    processEvents st (e :: evs) =
      processEvents (visit_Name st e.node e.varName e.ctx) evs :=
  rfl

theorem processEvents_append (st : ScopeState) (a b : List NameEvent) :
    processEvents st (a ++ b) = processEvents (processEvents st a) b :=
  List.foldl_append _ _ _ _

theorem processEvents_unused_lookup (evs : List NameEvent) :
    ∀ (st : ScopeState) (n : String),
      dictLookup (processEvents st evs).unusedNames n =
        unusedAfter (dictLookup st.unusedNames n)
          (evs.any (isEventFor n)) (evs.any (isReadEvent n)) := by
  induction evs with
  | nil =>
      intro st n
      cases hcur : dictLookup st.unusedNames n with
      | none => simp [processEvents, unusedAfter, hcur]
      | some b => cases b <;> simp [processEvents, unusedAfter, hcur]
  | cons e evs ih =>
      intro st n
      rw [processEvents_cons, ih, visit_Name_unused_lookup]
      by_cases hvn : e.varName = n
      · by_cases hctx : e.ctx = Ctx.store
        · cases hcur : dictLookup st.unusedNames n with
          | none =>
              simp [unusedAfter, isEventFor, isReadEvent, hvn, hctx,
                List.any_cons]
          | some b =>
              cases b <;>
                simp [unusedAfter, isEventFor, isReadEvent, hvn, hctx,
                  List.any_cons]
        · cases hcur : dictLookup st.unusedNames n with
          | none =>
              simp [unusedAfter, isEventFor, isReadEvent, hvn, hctx,
                List.any_cons]
          | some b =>
              cases b <;>
                simp [unusedAfter, isEventFor, isReadEvent, hvn, hctx,
                  List.any_cons]
      · simp [unusedAfter, isEventFor, isReadEvent, hvn, List.any_cons]

theorem processEvents_nameNodes_lookup (evs : List NameEvent) :
    ∀ (st : ScopeState) (n : String),
      dictLookup (processEvents st evs).nameNodes n =
        (match dictLookup st.nameNodes n with
         | some i => some i
         | Option.none =>
             (evs.find? (isStoreEvent n)).map (fun e => e.node)) := by
  induction evs with
  | nil =>
      intro st n
      cases hcur : dictLookup st.nameNodes n <;>
        simp [processEvents, hcur]
  | cons e evs ih =>
      intro st n
      rw [processEvents_cons, ih, visit_Name_nameNodes_lookup]
      by_cases hvn : e.varName = n
      · by_cases hctx : e.ctx = Ctx.store
        · have hst : isStoreEvent n e = true := by
            simp [isStoreEvent, hvn, hctx]
          cases hcur : dictLookup st.nameNodes n with
          | none => simp [hvn, hctx, hcur, List.find?_cons, hst]
          | some i => simp [hvn, hctx, hcur, List.find?_cons, hst]
        · have hst : isStoreEvent n e = false := by
            simp [isStoreEvent, hvn, hctx]
          simp [hvn, hctx, List.find?_cons, hst]
      · have hst : isStoreEvent n e = false := by
          simp [isStoreEvent, hvn]
        simp [hvn, List.find?_cons, hst]

theorem processEvents_unused_keys_nodup (evs : List NameEvent) :
    ∀ (st : ScopeState), (st.unusedNames.map Prod.fst).Nodup →
      ((processEvents st evs).unusedNames.map Prod.fst).Nodup := by
  induction evs with
  | nil => intro st h; simpa [processEvents] using h
  | cons e evs ih =>
      intro st h
      rw [processEvents_cons]
      exact ih _ (visit_Name_unused_keys_nodup h _ _ _)

/-! ### The tracker traversal is exactly the event sequence -/

mutual
theorem scopeVisit_eq_processEvents :
    ∀ (t : Tree) (st : ScopeState),
      scopeVisit st t = processEvents st (nameEvents t)
  | .name info ident ctx, st => by
      simp [scopeVisit, nameEvents, processEvents]
  | .module _ body, st => by
      simpa [scopeVisit, nameEvents] using
        scopeVisitList_eq_processEvents body st
  | .classDef _ _ body, st => by
      simpa [scopeVisit, nameEvents] using
        scopeVisitList_eq_processEvents body st
  | .functionDef _ _ body, st => by
      simpa [scopeVisit, nameEvents] using
        scopeVisitList_eq_processEvents body st
  | .setLit _ elts, st => by
      simpa [scopeVisit, nameEvents] using
        scopeVisitList_eq_processEvents elts st
  | .constant _ _, st => by simp [scopeVisit, nameEvents, processEvents]
  | .other _ children, st => by
      simpa [scopeVisit, nameEvents] using
        scopeVisitList_eq_processEvents children st
theorem scopeVisitList_eq_processEvents :
    ∀ (ts : List Tree) (st : ScopeState),
      scopeVisitList st ts = processEvents st (nameEventsList ts)
  | [], st => by simp [scopeVisitList, nameEventsList, processEvents]
  | t :: ts, st => by
      rw [show scopeVisitList st (t :: ts) =
            scopeVisitList (scopeVisit st t) ts from by
          simp [scopeVisitList]]
      rw [scopeVisit_eq_processEvents t st,
        scopeVisitList_eq_processEvents ts _]
      rw [show nameEventsList (t :: ts) =
            nameEvents t ++ nameEventsList ts from by
          simp [nameEventsList]]
      rw [processEvents_append]
end

theorem c9_line_shape_witness :
    w9v ∈ runChecker CheckerKind.setDup w9Tree ∧
    violationLine "t.py" "W001" w9v ∈
      print_violations "t.py" "W001" (runChecker CheckerKind.setDup w9Tree) ∧
    violationLine "t.py" "W001" w9v =
      "t.py:1:4: W001: Set contains duplicate item: 7" :=
  ⟨by decide,
    ((c9_line_shape "t.py" "W001" w9Tree CheckerKind.setDup).2 w9v
      (by decide)).1,
    by decide⟩

theorem foldl_emitStep_eq (nn : List (String × NodeInfo)) :
    ∀ (d : List (String × Bool)) (acc : List Violation),
      (∀ v ∈ acc, ∀ p ∈ d, ¬ v.message = unusedMsg p.1) →
      (d.map Prod.fst).Nodup →
      d.foldl (emitStep nn) acc = acc ++ emitList nn d := by
  intro d
  induction d with
  | nil => intro acc hacc hnd; simp [emitList]
  | cons p rest ih =>
      intro acc hacc hnd
      obtain ⟨k, b⟩ := p
      simp only [List.map_cons, List.nodup_cons] at hnd
      simp only [List.foldl_cons]
      cases b with
      | false =>
          rw [show emitStep nn acc (k, false) = acc by simp [emitStep]]
          rw [ih acc (fun v hv q hq => hacc v hv q (List.mem_cons_of_mem _ hq))
            hnd.2]
          simp [emitList]
      | true =>
          cases hnn : dictLookup nn k with
          | none =>
              rw [show emitStep nn acc (k, true) = acc by
                simp [emitStep, hnn]]
              rw [ih acc
                (fun v hv q hq => hacc v hv q (List.mem_cons_of_mem _ hq))
                hnd.2]
              simp [emitList, hnn]
          | some info =>
              have hw : Violation.mk info (unusedMsg k) ∉ acc := by
                intro hmem
                exact hacc _ hmem (k, true) (List.mem_cons_self _ _) rfl
              rw [show emitStep nn acc (k, true) =
                    acc ++ [⟨info, unusedMsg k⟩] by
                simp [emitStep, hnn, addViolation_of_not_mem hw]]
              have hacc2 :
                  ∀ v ∈ acc ++ [Violation.mk info (unusedMsg k)],
                    ∀ q ∈ rest, ¬ v.message = unusedMsg q.1 := by
                intro v hv q hq
                rcases List.mem_append.mp hv with hv1 | hv2
                · exact hacc v hv1 q (List.mem_cons_of_mem _ hq)
                · have hveq : v = Violation.mk info (unusedMsg k) := by
                    simpa using hv2
                  subst hveq
                  intro hmsg
                  have hk : k = q.1 := unusedMsg_inj hmsg
                  exact hnd.1
                    (by rw [hk]; exact List.mem_map_of_mem Prod.fst hq)
              rw [ih _ hacc2 hnd.2]
              simp [emitList, hnn]

theorem emitList_mem (nn : List (String × NodeInfo))
    (d : List (String × Bool)) (v : Violation) (h : v ∈ emitList nn d) :
    ∃ p ∈ d, p.2 = true ∧ v.message = unusedMsg p.1 ∧
      dictLookup nn p.1 = some v.node := by
  rcases List.mem_filterMap.mp h with ⟨p, hp, hf⟩
  refine ⟨p, hp, ?_⟩
  cases hb : p.2 with
  | false => simp [hb] at hf
  | true =>
      simp only [hb, if_pos, Option.map_eq_some'] at hf
      obtain ⟨info, hinfo, hv⟩ := hf
      subst hv
      exact ⟨rfl, rfl, by simpa using hinfo⟩

theorem emitList_count (nn : List (String × NodeInfo)) :
    ∀ (d : List (String × Bool)) (n : String) (info : NodeInfo),
      (d.map Prod.fst).Nodup →
      dictLookup d n = some true →
      dictLookup nn n = some info →
      (emitList nn d).count ⟨info, unusedMsg n⟩ = 1 := by
  intro d
  induction d with
  | nil => intro n info _ hd _; simp [dictLookup] at hd
  | cons p rest ih =>
      intro n info hnd hd hnn
      obtain ⟨k, b⟩ := p
      simp only [List.map_cons, List.nodup_cons] at hnd
      by_cases hk : k = n
      · subst hk
        have hb : b = true := by
          rw [show dictLookup ((k, b) :: rest) k = some b by
            simp [dictLookup]] at hd
          injection hd
        subst hb
        rw [show emitList nn ((k, true) :: rest) =
              Violation.mk info (unusedMsg k) :: emitList nn rest by
          simp [emitList, hnn]]
        rw [List.count_cons_self]
        have hzero :
            (emitList nn rest).count ⟨info, unusedMsg k⟩ = 0 := by
          rw [List.count_eq_zero]
          intro hmem
          obtain ⟨q, hq, _, hmsg, _⟩ := emitList_mem nn rest _ hmem
          have hkq : k = q.1 := unusedMsg_inj hmsg
          exact hnd.1 (by rw [hkq]; exact List.mem_map_of_mem Prod.fst hq)
        rw [hzero]
      · have hd2 : dictLookup rest n = some true := by
          simpa [dictLookup, hk] using hd
        have hvne :
            ∀ i2 : NodeInfo,
              ¬ Violation.mk info (unusedMsg n) =
                Violation.mk i2 (unusedMsg k) := by
          intro i2 heq
          injection heq with h1 h2
          exact hk ((unusedMsg_inj h2).symm)
        cases b with
        | false =>
            rw [show emitList nn ((k, false) :: rest) = emitList nn rest by
              simp [emitList]]
            exact ih n info hnd.2 hd2 hnn
        | true =>
            cases hnnk : dictLookup nn k with
            | none =>
                rw [show emitList nn ((k, true) :: rest) =
                      emitList nn rest by simp [emitList, hnnk]]
                exact ih n info hnd.2 hd2 hnn
            | some i2 =>
                rw [show emitList nn ((k, true) :: rest) =
                      Violation.mk i2 (unusedMsg k) :: emitList nn rest by
                  simp [emitList, hnnk]]
                rw [List.count_cons_of_ne (hvne i2)]
                exact ih n info hnd.2 hd2 hnn

theorem check_eq_emitList (t : Tree) :
    check_for_unused_variables [] t =
      emitList (processEvents initScope (nameEvents t)).nameNodes
        (processEvents initScope (nameEvents t)).unusedNames := by
  have hkeys :
      (((processEvents initScope (nameEvents t)).unusedNames.map
        Prod.fst)).Nodup :=
    processEvents_unused_keys_nodup (nameEvents t) initScope (by simp [initScope])
  show (scopeVisit initScope t).unusedNames.foldl
      (emitStep (scopeVisit initScope t).nameNodes) [] = _
  rw [scopeVisit_eq_processEvents t initScope]
  rw [foldl_emitStep_eq _ _ [] (by intro v hv; simp at hv) hkeys]
  simp

theorem initScope_unused_lookup (n : String) :
    dictLookup initScope.unusedNames n = Option.none := rfl

theorem initScope_nameNodes_lookup (n : String) :
    dictLookup initScope.nameNodes n = Option.none := rfl

theorem any_isEventFor_of_any_isStoreEvent {evs : List NameEvent}
    {n : String} (h : evs.any (isStoreEvent n) = true) :
    evs.any (isEventFor n) = true := by
  rcases List.any_eq_true.mp h with ⟨e, he, hse⟩
  refine List.any_eq_true.mpr ⟨e, he, ?_⟩
  simp only [isStoreEvent, Bool.and_eq_true, decide_eq_true_eq] at hse
  simp [isEventFor, hse.1]

/-! ### C2 — unused variables within one scope's subtree -/

/-- C2: for every scope node the analysis processes: a name with at least
one write occurrence and no read occurrence anywhere in the node's subtree
yields exactly one violation, attached to the node of its first write, with
message `Unused variable: <name>` (and every violation carrying that message
is that one); a name both written and read in the subtree, in either order,
yields no violation with its message. -/
theorem c2_unused_variable_scope_analysis (t : Tree) (n : String) :
    (hasWrite n t = true → hasRead n t = false →
      ∃ info, firstWriteNode n t = some info ∧
        (check_for_unused_variables [] t).count ⟨info, unusedMsg n⟩ = 1 ∧
        ∀ v ∈ check_for_unused_variables [] t,
          v.message = unusedMsg n → v = ⟨info, unusedMsg n⟩) ∧
    (hasWrite n t = true → hasRead n t = true →
      ∀ v ∈ check_for_unused_variables [] t,
        ¬ v.message = unusedMsg n) := by
  have hkeys :
      (((processEvents initScope (nameEvents t)).unusedNames.map
        Prod.fst)).Nodup :=
    processEvents_unused_keys_nodup (nameEvents t) initScope
      (by simp [initScope])
  have hnodes :
      dictLookup (processEvents initScope (nameEvents t)).nameNodes n =
        firstWriteNode n t := by
    rw [processEvents_nameNodes_lookup, initScope_nameNodes_lookup]
    rfl
  constructor
  · intro hw hr
    have hev : (nameEvents t).any (isEventFor n) = true :=
      any_isEventFor_of_any_isStoreEvent hw
    have hlook :
        dictLookup (processEvents initScope (nameEvents t)).unusedNames n =
          some true := by
      rw [processEvents_unused_lookup, initScope_unused_lookup]
      simp only [unusedAfter, hev, if_pos]
      rw [show (nameEvents t).any (isReadEvent n) = false from hr]
      rfl
    have hfind : ((nameEvents t).find? (isStoreEvent n)).isSome := by
      rw [List.find?_isSome]
      rcases List.any_eq_true.mp hw with ⟨e, he, hse⟩
      exact ⟨e, he, hse⟩
    obtain ⟨e0, he0⟩ := Option.isSome_iff_exists.mp hfind
    refine ⟨e0.node, ?_, ?_, ?_⟩
    · simp [firstWriteNode, he0]
    · rw [check_eq_emitList]
      refine emitList_count _ _ n e0.node hkeys hlook ?_
      rw [hnodes]
      simp [firstWriteNode, he0]
    · intro v hv hmsg
      rw [check_eq_emitList] at hv
      obtain ⟨p, hp, hptrue, hpm, hpn⟩ := emitList_mem _ _ v hv
      have hpn2 : p.1 = n := unusedMsg_inj (hpm.symm.trans hmsg)
      rw [hpn2, hnodes] at hpn
      rw [show firstWriteNode n t = some e0.node by
        simp [firstWriteNode, he0]] at hpn
      cases v with
      | mk vnode vmsg =>
          injection hpn with hpn3
          simp only at hmsg
          rw [hmsg, hpn3]
  · intro hw hr
    have hev : (nameEvents t).any (isEventFor n) = true :=
      any_isEventFor_of_any_isStoreEvent hw
    have hlook :
        dictLookup (processEvents initScope (nameEvents t)).unusedNames n =
          some false := by
      rw [processEvents_unused_lookup, initScope_unused_lookup]
      simp only [unusedAfter, hev, if_pos]
      rw [show (nameEvents t).any (isReadEvent n) = true from hr]
      rfl
    intro v hv hmsg
    rw [check_eq_emitList] at hv
    obtain ⟨p, hp, hptrue, hpm, hpn⟩ := emitList_mem _ _ v hv
    have hpn2 : p.1 = n := unusedMsg_inj (hpm.symm.trans hmsg)
    obtain ⟨pk, pb⟩ := p
    simp only at hpn2 hptrue
    subst hpn2
    subst hptrue
    rw [dictLookup_of_mem hkeys hp] at hlook
    simp at hlook

theorem c2_unused_variable_scope_analysis_witness :
    hasWrite "y" w2Tree = true ∧ hasRead "y" w2Tree = false ∧
    ∃ info, firstWriteNode "y" w2Tree = some info ∧
      (check_for_unused_variables [] w2Tree).count ⟨info, unusedMsg "y"⟩ = 1 ∧
      ∀ v ∈ check_for_unused_variables [] w2Tree,
        v.message = unusedMsg "y" → v = ⟨info, unusedMsg "y"⟩ :=
  ⟨by decide, by decide,
    (c2_unused_variable_scope_analysis w2Tree "y").1 (by decide) (by decide)⟩

/-! ### C5 — the unused flag is monotone once false -/

/-- C5: within one scope tracker's run, once a read (non-write) occurrence
of a name has set its unused flag to false, the flag stays `false` through
every subsequent occurrence — in particular a later write does not reset it
to true. -/
theorem c5_unused_flag_monotone_false (st : ScopeState) (e : NameEvent)
    (evs : List NameEvent) (n : String)
    (hn : e.varName = n) (hr : ¬ e.ctx = Ctx.store) :
    dictLookup (processEvents st (e :: evs)).unusedNames n = some false := by
  rw [processEvents_cons, processEvents_unused_lookup]
  have hstep :
      dictLookup (visit_Name st e.node e.varName e.ctx).unusedNames n =
        some false := by
    rw [visit_Name_unused_lookup]
    simp [hn, hr]
  rw [hstep]
  rfl

theorem c5_unused_flag_monotone_false_witness :
    w5read.varName = "x" ∧ ¬ w5read.ctx = Ctx.store ∧
    dictLookup (processEvents initScope [w5read, w5write]).unusedNames "x" =
      some false :=
  ⟨rfl, by decide,
    c5_unused_flag_monotone_false initScope w5read [w5write] "x" rfl
      (by decide)⟩

theorem pyEq_iff_pyKey : ∀ a b : PyVal, pyEq a b = true ↔ pyKey a = pyKey b
  | .int m, .int n => by simp [pyEq, pyKey]
  | .int m, .bool b => by cases b <;> simp [pyEq, pyKey]
  | .int m, .str s => by simp [pyEq, pyKey]
  | .int m, .none => by simp [pyEq, pyKey]
  | .bool a, .int n => by cases a <;> simp [pyEq, pyKey]
  | .bool a, .bool b => by cases a <;> cases b <;> simp [pyEq, pyKey]
  | .bool a, .str s => by cases a <;> simp [pyEq, pyKey]
  | .bool a, .none => by cases a <;> simp [pyEq, pyKey]
  | .str s, .int n => by simp [pyEq, pyKey]
  | .str s, .bool b => by cases b <;> simp [pyEq, pyKey]
  | .str s, .str t => by simp [pyEq, pyKey]
  | .str s, .none => by simp [pyEq, pyKey]
  | .none, .int n => by simp [pyEq, pyKey]
  | .none, .bool b => by cases b <;> simp [pyEq, pyKey]
  | .none, .str s => by simp [pyEq, pyKey]
  | .none, .none => by simp [pyEq, pyKey]

theorem pyMem_append (v : PyVal) (a b : List PyVal) :
    pyMem v (a ++ b) = (pyMem v a || pyMem v b) := by
  simp [pyMem, List.any_append]

theorem pyMem_absorb {v : PyVal} {seen : List PyVal}
    (h : pyMem v seen = true) (w : PyVal) (x : List PyVal) :
    pyMem w ((seen ++ [v]) ++ x) = pyMem w (seen ++ x) := by
  rw [pyMem_append, pyMem_append, pyMem_append]
  by_cases hvw : pyEq v w = true
  · obtain ⟨u, hu, huv⟩ := List.any_eq_true.mp h
    have huw : pyEq u w = true := by
      rw [pyEq_iff_pyKey] at huv hvw ⊢
      exact huv.trans hvw
    have hws : pyMem w seen = true := List.any_eq_true.mpr ⟨u, hu, huw⟩
    simp [hws]
  · have hvw2 : pyEq v w = false := by
      cases hb : pyEq v w with
      | true => exact absurd hb hvw
      | false => rfl
    have hv1 : pyMem w [v] = false := by simp [pyMem, hvw2]
    simp [hv1]

theorem foldl_setDupStep_eq (es : List Tree) :
    ∀ (seen : List PyVal) (vs : List Violation),
      (∀ w ∈ setDupGo seen es, w ∉ vs) →
      (setDupGo seen es).Nodup →
      (es.foldl setDupStep (seen, vs)).2 = vs ++ setDupGo seen es := by
  induction es with
  | nil => intro seen vs _ _; simp [setDupGo]
  | cons e rest ih =>
      intro seen vs hdisj hnd
      simp only [List.foldl_cons]
      cases e with
      | constant info v =>
          by_cases hm : pyMem v seen = true
          · have hgo : setDupGo seen (Tree.constant info v :: rest) =
                Violation.mk info (dupItemMsg v) :: setDupGo seen rest := by
              simp [setDupGo, hm]
            rw [hgo] at hdisj hnd
            have hw : Violation.mk info (dupItemMsg v) ∉ vs :=
              hdisj _ (List.mem_cons_self _ _)
            rw [show setDupStep (seen, vs) (Tree.constant info v) =
                  (seen, vs ++ [Violation.mk info (dupItemMsg v)]) by
              simp [setDupStep, hm, addViolation_of_not_mem hw]]
            have hnd2 := List.nodup_cons.mp hnd
            have hdisj2 :
                ∀ u ∈ setDupGo seen rest,
                  u ∉ vs ++ [Violation.mk info (dupItemMsg v)] := by
              intro u hu
              have h1 : u ∉ vs := hdisj u (List.mem_cons_of_mem _ hu)
              have h2 : u ≠ Violation.mk info (dupItemMsg v) := by
                intro heq
                exact hnd2.1 (heq ▸ hu)
              simp [h1, h2]
            rw [ih seen _ hdisj2 hnd2.2, hgo]
            simp
          · have hgo : setDupGo seen (Tree.constant info v :: rest) =
                setDupGo (seen ++ [v]) rest := by
              simp [setDupGo, hm]
            rw [hgo] at hdisj hnd
            rw [show setDupStep (seen, vs) (Tree.constant info v) =
                  (seen ++ [v], vs) by simp [setDupStep, hm]]
            rw [ih _ _ hdisj hnd, hgo]
      | module i b =>
          rw [show setDupStep (seen, vs) (Tree.module i b) = (seen, vs)
            from rfl]
          rw [show setDupGo seen (Tree.module i b :: rest) =
                setDupGo seen rest by simp [setDupGo]] at hdisj hnd ⊢
          exact ih seen vs hdisj hnd
      | classDef i nm b =>
          rw [show setDupStep (seen, vs) (Tree.classDef i nm b) = (seen, vs)
            from rfl]
          rw [show setDupGo seen (Tree.classDef i nm b :: rest) =
                setDupGo seen rest by simp [setDupGo]] at hdisj hnd ⊢
          exact ih seen vs hdisj hnd
      | functionDef i nm b =>
          rw [show setDupStep (seen, vs) (Tree.functionDef i nm b) =
                (seen, vs) from rfl]
          rw [show setDupGo seen (Tree.functionDef i nm b :: rest) =
                setDupGo seen rest by simp [setDupGo]] at hdisj hnd ⊢
          exact ih seen vs hdisj hnd
      | setLit i elts =>
          rw [show setDupStep (seen, vs) (Tree.setLit i elts) = (seen, vs)
            from rfl]
          rw [show setDupGo seen (Tree.setLit i elts :: rest) =
                setDupGo seen rest by simp [setDupGo]] at hdisj hnd ⊢
          exact ih seen vs hdisj hnd
      | name i nm cx =>
          rw [show setDupStep (seen, vs) (Tree.name i nm cx) = (seen, vs)
            from rfl]
          rw [show setDupGo seen (Tree.name i nm cx :: rest) =
                setDupGo seen rest by simp [setDupGo]] at hdisj hnd ⊢
          exact ih seen vs hdisj hnd
      | other i cs =>
          rw [show setDupStep (seen, vs) (Tree.other i cs) = (seen, vs)
            from rfl]
          rw [show setDupGo seen (Tree.other i cs :: rest) =
                setDupGo seen rest by simp [setDupGo]] at hdisj hnd ⊢
          exact ih seen vs hdisj hnd

theorem setDupGo_ids_sublist (es : List Tree) :
    ∀ seen,
      ((setDupGo seen es).map (fun w => w.node.id)).Sublist
        (constElemIds es) := by
  induction es with
  | nil => intro seen; simp [setDupGo, constElemIds]
  | cons e rest ih =>
      intro seen
      cases e with
      | constant info v =>
          have hids : constElemIds (Tree.constant info v :: rest) =
              info.id :: constElemIds rest := by simp [constElemIds]
          by_cases hm : pyMem v seen = true
          · rw [show setDupGo seen (Tree.constant info v :: rest) =
                  Violation.mk info (dupItemMsg v) :: setDupGo seen rest by
                simp [setDupGo, hm], hids]
            exact (ih seen).cons₂ info.id
          · rw [show setDupGo seen (Tree.constant info v :: rest) =
                  setDupGo (seen ++ [v]) rest by simp [setDupGo, hm], hids]
            exact (ih (seen ++ [v])).cons info.id
      | module i b =>
          rw [show setDupGo seen (Tree.module i b :: rest) =
                setDupGo seen rest by simp [setDupGo],
            show constElemIds (Tree.module i b :: rest) =
                constElemIds rest by simp [constElemIds]]
          exact ih seen
      | classDef i nm b =>
          rw [show setDupGo seen (Tree.classDef i nm b :: rest) =
                setDupGo seen rest by simp [setDupGo],
            show constElemIds (Tree.classDef i nm b :: rest) =
                constElemIds rest by simp [constElemIds]]
          exact ih seen
      | functionDef i nm b =>
          rw [show setDupGo seen (Tree.functionDef i nm b :: rest) =
                setDupGo seen rest by simp [setDupGo],
            show constElemIds (Tree.functionDef i nm b :: rest) =
                constElemIds rest by simp [constElemIds]]
          exact ih seen
      | setLit i elts =>
          rw [show setDupGo seen (Tree.setLit i elts :: rest) =
                setDupGo seen rest by simp [setDupGo],
            show constElemIds (Tree.setLit i elts :: rest) =
                constElemIds rest by simp [constElemIds]]
          exact ih seen
      | name i nm cx =>
          rw [show setDupGo seen (Tree.name i nm cx :: rest) =
                setDupGo seen rest by simp [setDupGo],
            show constElemIds (Tree.name i nm cx :: rest) =
                constElemIds rest by simp [constElemIds]]
          exact ih seen
      | other i cs =>
          rw [show setDupGo seen (Tree.other i cs :: rest) =
                setDupGo seen rest by simp [setDupGo],
            show constElemIds (Tree.other i cs :: rest) =
                constElemIds rest by simp [constElemIds]]
          exact ih seen

theorem setDupGo_nodup {es : List Tree} {seen : List PyVal}
    (h : (constElemIds es).Nodup) : (setDupGo seen es).Nodup :=
  ((h.sublist (setDupGo_ids_sublist es seen))).of_map

theorem flaggedAt_eq_from (es : List Tree) (i : Nat) :
    flaggedAt es i = flaggedFrom [] es i := by
  unfold flaggedAt flaggedFrom
  cases hg : es.get? i with
  | none => rfl
  | some e => cases e <;> simp

theorem flaggedFrom_zero_cons (seen : List PyVal) (e : Tree)
    (rest : List Tree) :
    flaggedFrom seen (e :: rest) 0 =
      (match e with
       | .constant info v =>
           if pyMem v seen then some ⟨info, dupItemMsg v⟩ else Option.none
       | _ => Option.none) := by
  unfold flaggedFrom
  cases e <;> simp [earlierConstVals]

theorem earlierConstVals_succ_cons (e : Tree) (rest : List Tree) (i : Nat) :
    earlierConstVals (e :: rest) (i + 1) =
      constValOf e ++ earlierConstVals rest i := by
  cases e <;> simp [earlierConstVals, constValOf]

theorem flaggedFrom_succ_cons (seen : List PyVal) (e : Tree)
    (rest : List Tree) (i : Nat) :
    flaggedFrom seen (e :: rest) (i + 1) =
      flaggedFrom (seen ++ constValOf e) rest i := by
  unfold flaggedFrom
  rw [show (e :: rest).get? (i + 1) = rest.get? i from rfl]
  cases hg : rest.get? i with
  | none => rfl
  | some e2 =>
      cases e2 with
      | constant info v =>
          show (if pyMem v (seen ++ earlierConstVals (e :: rest) (i + 1)) = true
              then some (Violation.mk info (dupItemMsg v)) else Option.none) =
            (if pyMem v ((seen ++ constValOf e) ++ earlierConstVals rest i) = true
              then some (Violation.mk info (dupItemMsg v)) else Option.none)
          rw [earlierConstVals_succ_cons, ← List.append_assoc]
      | module i2 b => rfl
      | classDef i2 nm b => rfl
      | functionDef i2 nm b => rfl
      | setLit i2 elts => rfl
      | name i2 nm cx => rfl
      | other i2 cs => rfl

theorem flaggedFrom_absorb {v : PyVal} {seen : List PyVal}
    (h : pyMem v seen = true) (es : List Tree) (i : Nat) :
    flaggedFrom (seen ++ [v]) es i = flaggedFrom seen es i := by
  unfold flaggedFrom
  cases hg : es.get? i with
  | none => rfl
  | some e =>
      cases e with
      | constant info w =>
          show (if pyMem w ((seen ++ [v]) ++ earlierConstVals es i) = true
              then some (Violation.mk info (dupItemMsg w)) else Option.none) =
            (if pyMem w (seen ++ earlierConstVals es i) = true
              then some (Violation.mk info (dupItemMsg w)) else Option.none)
          rw [pyMem_absorb h]
      | module i2 b => rfl
      | classDef i2 nm b => rfl
      | functionDef i2 nm b => rfl
      | setLit i2 elts => rfl
      | name i2 nm cx => rfl
      | other i2 cs => rfl

theorem setDupGo_eq_spec (es : List Tree) :
    ∀ seen,
      setDupGo seen es =
        (List.range es.length).filterMap (flaggedFrom seen es) := by
  induction es with
  | nil => intro seen; simp [setDupGo]
  | cons e rest ih =>
      intro seen
      rw [List.length_cons, List.range_succ_eq_map, List.filterMap_cons,
        List.filterMap_map]
      have hcomp :
          (flaggedFrom seen (e :: rest) ∘ Nat.succ) =
            flaggedFrom (seen ++ constValOf e) rest := by
        funext i
        exact flaggedFrom_succ_cons seen e rest i
      rw [hcomp, flaggedFrom_zero_cons]
      cases e with
      | constant info v =>
          by_cases hm : pyMem v seen = true
          · rw [show setDupGo seen (Tree.constant info v :: rest) =
                  Violation.mk info (dupItemMsg v) :: setDupGo seen rest by
                simp [setDupGo, hm]]
            have habs :
                flaggedFrom (seen ++ constValOf (Tree.constant info v))
                    rest = flaggedFrom seen rest := by
              funext i
              exact flaggedFrom_absorb hm rest i
            rw [habs, ih seen]
            simp [hm]
          · rw [show setDupGo seen (Tree.constant info v :: rest) =
                  setDupGo (seen ++ [v]) rest by simp [setDupGo, hm]]
            rw [ih (seen ++ [v])]
            simp [hm, constValOf]
      | module i b =>
          rw [show setDupGo seen (Tree.module i b :: rest) =
                setDupGo seen rest by simp [setDupGo], ih seen]
          simp [constValOf]
      | classDef i nm b =>
          rw [show setDupGo seen (Tree.classDef i nm b :: rest) =
                setDupGo seen rest by simp [setDupGo], ih seen]
          simp [constValOf]
      | functionDef i nm b =>
          rw [show setDupGo seen (Tree.functionDef i nm b :: rest) =
                setDupGo seen rest by simp [setDupGo], ih seen]
          simp [constValOf]
      | setLit i elts =>
          rw [show setDupGo seen (Tree.setLit i elts :: rest) =
                setDupGo seen rest by simp [setDupGo], ih seen]
          simp [constValOf]
      | name i nm cx =>
          rw [show setDupGo seen (Tree.name i nm cx :: rest) =
                setDupGo seen rest by simp [setDupGo], ih seen]
          simp [constValOf]
      | other i cs =>
          rw [show setDupGo seen (Tree.other i cs :: rest) =
                setDupGo seen rest by simp [setDupGo], ih seen]
          simp [constValOf]

theorem setDupGo_nil_of_pairwise (es : List Tree) :
    ∀ seen,
      (∀ w ∈ constElemVals es, pyMem w seen = false) →
      (constElemVals es).Pairwise (fun a b => pyEq a b = false) →
      setDupGo seen es = [] := by
  induction es with
  | nil => intro _ _ _; simp [setDupGo]
  | cons e rest ih =>
      intro seen hseen hpw
      cases e with
      | constant info v =>
          rw [show constElemVals (Tree.constant info v :: rest) =
                v :: constElemVals rest by simp [constElemVals]]
            at hseen hpw
          have hm : pyMem v seen = false := hseen v (List.mem_cons_self _ _)
          rw [show setDupGo seen (Tree.constant info v :: rest) =
                setDupGo (seen ++ [v]) rest by simp [setDupGo, hm]]
          have hpw2 := List.pairwise_cons.mp hpw
          apply ih
          · intro w hw
            have h1 : pyMem w seen = false := hseen w (List.mem_cons_of_mem _ hw)
            have h2 : pyEq v w = false := hpw2.1 w hw
            rw [pyMem_append]
            have h3 : pyMem w [v] = false := by
              simp [pyMem]
              exact h2
            simp [h1, h3]
          · exact hpw2.2
      | module i b =>
          rw [show setDupGo seen (Tree.module i b :: rest) =
                setDupGo seen rest by simp [setDupGo]]
          rw [show constElemVals (Tree.module i b :: rest) =
                constElemVals rest by simp [constElemVals]] at hseen hpw
          exact ih seen hseen hpw
      | classDef i nm b =>
          rw [show setDupGo seen (Tree.classDef i nm b :: rest) =
                setDupGo seen rest by simp [setDupGo]]
          rw [show constElemVals (Tree.classDef i nm b :: rest) =
                constElemVals rest by simp [constElemVals]] at hseen hpw
          exact ih seen hseen hpw
      | functionDef i nm b =>
          rw [show setDupGo seen (Tree.functionDef i nm b :: rest) =
                setDupGo seen rest by simp [setDupGo]]
          rw [show constElemVals (Tree.functionDef i nm b :: rest) =
                constElemVals rest by simp [constElemVals]] at hseen hpw
          exact ih seen hseen hpw
      | setLit i elts =>
          rw [show setDupGo seen (Tree.setLit i elts :: rest) =
                setDupGo seen rest by simp [setDupGo]]
          rw [show constElemVals (Tree.setLit i elts :: rest) =
                constElemVals rest by simp [constElemVals]] at hseen hpw
          exact ih seen hseen hpw
      | name i nm cx =>
          rw [show setDupGo seen (Tree.name i nm cx :: rest) =
                setDupGo seen rest by simp [setDupGo]]
          rw [show constElemVals (Tree.name i nm cx :: rest) =
                constElemVals rest by simp [constElemVals]] at hseen hpw
          exact ih seen hseen hpw
      | other i cs =>
          rw [show setDupGo seen (Tree.other i cs :: rest) =
                setDupGo seen rest by simp [setDupGo]]
          rw [show constElemVals (Tree.other i cs :: rest) =
                constElemVals rest by simp [constElemVals]] at hseen hpw
          exact ih seen hseen hpw

/-- C1: on a set-literal node (with distinct node identities, as in any real
parse tree) the checker's violations are exactly the specification's list:
one violation per constant element that is not the first occurrence of its
value among the set's elements in written order, attached to that later
element's node, with message `Set contains duplicate item: <value>`;
non-constant elements are skipped and never compared; and a set literal
whose constant values are pairwise distinct yields zero violations. -/
theorem c1_set_duplicate_checker (i : NodeInfo) (es : List Tree)
    (h : (constElemIds es).Nodup) :
    sdicVisit [] (Tree.setLit i es) = specSetDuplicates es ∧
    ((constElemVals es).Pairwise (fun a b => pyEq a b = false) →
      sdicVisit [] (Tree.setLit i es) = []) := by
  have hvs : sdicVisit [] (Tree.setLit i es) =
      (es.foldl setDupStep (([] : List PyVal), ([] : List Violation))).2 := by
    simp [sdicVisit, visit_Set]
  have hnd : (setDupGo [] es).Nodup := setDupGo_nodup h
  have hmain :
      (es.foldl setDupStep (([] : List PyVal), ([] : List Violation))).2 =
        setDupGo [] es := by
    rw [foldl_setDupStep_eq es [] [] (by intro w _ hw; simp at hw) hnd]
    simp
  constructor
  · rw [hvs, hmain, setDupGo_eq_spec]
    rw [specSetDuplicates,
      show flaggedAt es = flaggedFrom [] es from funext (flaggedAt_eq_from es)]
  · intro hpw
    rw [hvs, hmain]
    exact setDupGo_nil_of_pairwise es [] (by intro w _; rfl) hpw

theorem c1_set_duplicate_checker_witness :
    (constElemIds w1Elts).Nodup ∧
    sdicVisit [] (Tree.setLit ⟨0, 1, 0⟩ w1Elts) = specSetDuplicates w1Elts ∧
    specSetDuplicates w1Elts =
      [⟨⟨3, 1, 7⟩, dupItemMsg (PyVal.int 2)⟩,
       ⟨⟨5, 1, 13⟩, dupItemMsg (PyVal.int 1)⟩] ∧
    sdicVisit [] (Tree.setLit ⟨0, 2, 0⟩ w1DistinctElts) = [] :=
  ⟨by decide,
    (c1_set_duplicate_checker ⟨0, 1, 0⟩ w1Elts (by decide)).1,
    by decide,
    (c1_set_duplicate_checker ⟨0, 2, 0⟩ w1DistinctElts (by decide)).2
      (by decide)⟩

/-- C8 is false as stated: a checker's violations live in a Python `set`
(and the checkers themselves in another), whose enumeration order the
source does not fix — it varies with hash seeds and object addresses across
interpreter runs. Two enumerations of the same violation set (`id` and
`List.reverse`, both permutations of it) print different byte sequences on
the same input. -/
theorem c8_counterexample :
    linterOutput "t.py" c8Tree mainCheckers id ≠
      linterOutput "t.py" c8Tree mainCheckers List.reverse ∧
    (List.reverse (runChecker CheckerKind.setDup c8Tree)).Perm
      (runChecker CheckerKind.setDup c8Tree) := by
  constructor
  · decide
  · exact List.reverse_perm _

/-- C8 amended: the linter is deterministic up to set-enumeration order —
two runs on byte-identical input print permutations of one another (the
same multiset of violation lines), whatever order each run's checker set
and violation sets are enumerated in. -/
theorem c8_deterministic_up_to_set_order (fileName : String) (t : Tree)
    (cs1 cs2 : List (CheckerKind × String))
    (e1 e2 : List Violation → List Violation)
    (h1 : ∀ vs, (e1 vs).Perm vs) (h2 : ∀ vs, (e2 vs).Perm vs)
    (hcs : cs1.Perm cs2) :
    (linterOutput fileName t cs1 e1).Perm
      (linterOutput fileName t cs2 e2) := by
  have step1 : ∀ cs : List (CheckerKind × String),
      (linterOutput fileName t cs e1).Perm (linterOutput fileName t cs e2) := by
    intro cs
    induction cs with
    | nil => simp [linterOutput]
    | cons c rest ih =>
        simp only [linterOutput, print_violations, List.map_cons,
          List.flatten_cons] at ih ⊢
        exact (((h1 _).trans ((h2 _).symm)).map _).append ih
  have step2 :
      (linterOutput fileName t cs1 e2).Perm
        (linterOutput fileName t cs2 e2) := by
    unfold linterOutput
    exact (hcs.map _).flatten
  exact (step1 cs1).trans step2

theorem c8_deterministic_up_to_set_order_witness :
    (linterOutput "t.py" c8Tree mainCheckers id).Perm
      (linterOutput "t.py" c8Tree mainCheckers List.reverse) :=
  c8_deterministic_up_to_set_order "t.py" c8Tree mainCheckers mainCheckers
    id List.reverse (fun vs => List.Perm.refl vs)
    (fun vs => List.reverse_perm vs) (List.Perm.refl mainCheckers)

end MyLint

